import Mathlib

/-!
# Verification of the VaultBurn core (`src/file_operations.py`)

A shallow embedding of VaultBurn's file-destruction and file-encryption
engine.  Bytes are modelled as `Nat` values below 256, files as an
assignment of paths to byte lists, and the side effects of every
operation (writes, flushes, fsyncs, removals, log records) are returned
as explicit traces.  Randomness (`os.urandom`), the wall clock, and the
possibility of OS-level exceptions are passed in as parameters, so every
definition is a pure, executable function of its inputs.

The external `cryptography.fernet` library is not part of the
repository; its documented Fernet construction (base64url transport,
`0x80` version byte, 64-bit timestamp, 16-byte IV, CBC mode with PKCS7
padding on 16-byte blocks, 32-byte HMAC trailer) is embedded faithfully
at the byte-layout level, with the two cryptographic kernels (the AES
block permutation and the HMAC-SHA256 compression) replaced by simple
executable stand-ins that keep exactly the interface properties the
library guarantees: the block map is a length-preserving, key-indexed
permutation of 16-byte blocks, and the MAC is a deterministic 32-byte
tag.  No claim settled here depends on any further property of AES or
SHA-256.
-/

namespace VaultBurn

/-! ## Filesystem model -/

/-- A filesystem: each path either holds a byte list or is absent. -/
def FS : Type := String → Option (List Nat)

/-- Reading a file's bytes (`open(path, 'rb').read()`); `none` when absent. -/
def FS.read (fs : FS) (p : String) : Option (List Nat) := fs p

/-- `os.path.exists`. -/
def FS.pathExists (fs : FS) (p : String) : Bool := (fs p).isSome

/-- `os.path.getsize` (0 for a missing file; callers check existence first). -/
def FS.sizeOf (fs : FS) (p : String) : Nat := ((fs p).getD []).length

/-- Writing a file (create or replace the full contents). -/
def FS.write (fs : FS) (p : String) (d : List Nat) : FS :=
  fun q => if q = p then some d else fs q

/-- `os.remove`. -/
def FS.remove (fs : FS) (p : String) : FS :=
  fun q => if q = p then none else fs q

@[simp] theorem FS.read_write_self (fs : FS) (p : String) (d : List Nat) :
    (fs.write p d).read p = some d := by
  simp [FS.read, FS.write]

theorem FS.read_write_ne (fs : FS) (p q : String) (d : List Nat) (h : q ≠ p) :
    (fs.write p d).read q = fs.read q := by
  simp [FS.read, FS.write, h]

@[simp] theorem FS.read_remove_self (fs : FS) (p : String) :
    (fs.remove p).read p = none := by
  simp [FS.read, FS.remove]

/-- `os.path.basename`, for forward-slash paths: everything after the
last `'/'` (the whole path when it has no slash). -/
def basename (p : String) : String :=
  String.mk ((p.data.reverse.takeWhile (· ≠ '/')).reverse)

/-! ## Observable side effects

Filesystem effects and log records are collected in traces so that the
theorems can speak about what each operation did, in order. -/

/-- One filesystem side effect, in program order. -/
inductive FsEvent where
  /-- `open(path, "wb")` clears the existing contents before any write. -/
  | truncate (path : String)
  /-- `f.write(data)` of the full byte string. -/
  | write (path : String) (data : List Nat)
  /-- `f.flush()`. -/
  | flush (path : String)
  /-- `os.fsync(f.fileno())`. -/
  | fsync (path : String)
  /-- `os.remove(path)`. -/
  | remove (path : String)
  deriving DecidableEq, Repr

/-- One log record, identified by the call site in `file_operations.py`. -/
inductive Log where
  /-- `logging.warning(f"File not found: {file_path}")`. -/
  | warnNotFound (path : String)
  /-- `logging.info(f"Starting secure deletion of ...")`. -/
  | infoStart (name : String) (size passes : Nat)
  /-- `logging.debug(f"Completed overwrite pass {pass_num}/...")`. -/
  | debugPass (i : Nat) (name : String)
  /-- `logging.info(f"Successfully deleted ...")`. -/
  | infoDeleted (name : String) (size : Nat)
  /-- `logging.error(f"Permission denied deleting ...")`. -/
  | errPermission (path : String)
  /-- `logging.error(f"OS error deleting ...")`. -/
  | errOS (path : String)
  /-- `logging.error(f"Unexpected error deleting ...")`. -/
  | errUnexpected (path : String)
  /-- `logging.info(f"Successfully encrypted ...")`. -/
  | infoEncrypted (src dst : String)
  /-- `logging.error(f"Error encrypting ...")`. -/
  | errEncrypt (path : String)
  /-- `logging.info(f"Successfully decrypted ...")`. -/
  | infoDecrypted (src dst : String)
  /-- `logging.error(f"Error decrypting ...")`. -/
  | errDecrypt (path : String)
  deriving DecidableEq, Repr

/-- The Python exception classes that can cross the operations' bodies. -/
inductive PyExc where
  | permissionError
  | osError
  | otherError
  deriving DecidableEq, Repr

/-- The log record `secure_delete`'s handlers emit for an exception `e`:
`except PermissionError` / `except OSError` / `except Exception`, in that
order (`PermissionError` is a subclass of `OSError`). -/
def logOfExc (e : PyExc) (path : String) : Log :=
  match e with
  | .permissionError => .errPermission path
  | .osError => .errOS path
  | .otherError => .errUnexpected path

/-! ## `secure_delete` -/

/-- Injected OS failures for one `secure_delete` call: an exception raised
by the first `open(file_path, "wb")`, and one raised by `os.remove`.
`none` means the operation succeeds. -/
structure EraseFaults where
  openExc : Option PyExc
  removeExc : Option PyExc
  deriving DecidableEq, Repr

/-- The fault-free environment. -/
def noFaults : EraseFaults := ⟨none, none⟩

/-- The result of one `secure_delete` call: the final filesystem, the
filesystem-effect trace, the log records, and the returned boolean. -/
structure EraseResult where
  fs : FS
  events : List FsEvent
  logs : List Log
  ret : Bool

/-- The `for pass_num in range(1, passes + 1)` loop of `secure_delete`,
over the explicit list of pass indices.  Each pass draws `rnd i size`
fresh random bytes (`os.urandom(file_size)`), opens the file with mode
`"wb"` — which truncates it — writes the bytes, flushes, fsyncs, and
logs the debug record. -/
def eraseLoop (fs : FS) (rnd : Nat → Nat → List Nat) (path name : String)
    (size : Nat) : List Nat → FS × List FsEvent × List Log
  | [] => (fs, [], [])
  | i :: rest =>
    let random_data := rnd i size
    let rec_ := eraseLoop (fs.write path random_data) rnd path name size rest
    (rec_.1,
     [.truncate path, .write path random_data, .flush path, .fsync path] ++ rec_.2.1,
     .debugPass i name :: rec_.2.2)

/-- `secure_delete(file_path, passes=3)` from `src/file_operations.py`:
check existence (missing → warning, `False`); read the size and
basename; log the start record; run the overwrite passes; `os.remove`;
return `True`.  Any `PermissionError` / `OSError` / other exception is
caught, logged via the corresponding handler, and turned into `False`. -/
def secure_delete (fs : FS) (rnd : Nat → Nat → List Nat) (file_path : String)
    (passes : Nat) (faults : EraseFaults) : EraseResult :=
  if fs.pathExists file_path then
    let file_size := fs.sizeOf file_path
    let file_name := basename file_path
    match faults.openExc, passes with
    | some e, _ + 1 =>
      ⟨fs, [], [.infoStart file_name file_size passes, logOfExc e file_path], false⟩
    | _, _ =>
      let r := eraseLoop fs rnd file_path file_name file_size (List.range' 1 passes)
      match faults.removeExc with
      | some e =>
        ⟨r.1, r.2.1,
         .infoStart file_name file_size passes :: (r.2.2 ++ [logOfExc e file_path]),
         false⟩
      | none =>
        ⟨r.1.remove file_path, r.2.1 ++ [.remove file_path],
         .infoStart file_name file_size passes ::
           (r.2.2 ++ [.infoDeleted file_name file_size]),
         true⟩
  else
    ⟨fs, [], [.warnNotFound file_path], false⟩

/-! ## Behaviour of the overwrite loop -/

/-- The per-pass effect block: truncating open, full-size write, flush, fsync. -/
def passEvents (rnd : Nat → Nat → List Nat) (p : String) (size i : Nat) : List FsEvent :=
  [.truncate p, .write p (rnd i size), .flush p, .fsync p]

theorem eraseLoop_events (fs : FS) (rnd : Nat → Nat → List Nat) (p name : String)
    (size : Nat) (l : List Nat) :
    (eraseLoop fs rnd p name size l).2.1 = l.flatMap (passEvents rnd p size) := by
  induction l generalizing fs with
  | nil => rfl
  | cons i rest ih => simp [eraseLoop, ih, passEvents]

theorem eraseLoop_logs (fs : FS) (rnd : Nat → Nat → List Nat) (p name : String)
    (size : Nat) (l : List Nat) :
    (eraseLoop fs rnd p name size l).2.2 = l.map (Log.debugPass · name) := by
  induction l generalizing fs with
  | nil => rfl
  | cons i rest ih => simp [eraseLoop, ih]

theorem eraseLoop_read (fs : FS) (rnd : Nat → Nat → List Nat) (p name : String)
    (size : Nat) (l : List Nat) (hl : l ≠ []) :
    (eraseLoop fs rnd p name size l).1.read p = some (rnd (l.getLastD 0) size) := by
  induction l generalizing fs with
  | nil => exact absurd rfl hl
  | cons i rest ih =>
    cases rest with
    | nil => simp [eraseLoop]
    | cons j rest' => simpa [eraseLoop] using ih (fs.write p (rnd i size)) (by simp)

/-- Unfolding `secure_delete` on an existing file with a fault-free open. -/
theorem secure_delete_existing (fs : FS) (rnd : Nat → Nat → List Nat) (p : String)
    (passes : Nat) (removeExc : Option PyExc) (hex : fs.pathExists p = true) :
    secure_delete fs rnd p passes ⟨none, removeExc⟩ =
      (let r := eraseLoop fs rnd p (basename p) (fs.sizeOf p) (List.range' 1 passes)
      match removeExc with
      | some e =>
        ⟨r.1, r.2.1,
         .infoStart (basename p) (fs.sizeOf p) passes :: (r.2.2 ++ [logOfExc e p]), false⟩
      | none =>
        ⟨r.1.remove p, r.2.1 ++ [.remove p],
         .infoStart (basename p) (fs.sizeOf p) passes ::
           (r.2.2 ++ [.infoDeleted (basename p) (fs.sizeOf p)]), true⟩) := by
  cases passes <;> simp [secure_delete, hex]

/-- `secure_delete` on an existing file with fault-free OS calls, fully
reduced. -/
theorem secure_delete_ok_spec (fs : FS) (rnd : Nat → Nat → List Nat) (p : String)
    (d : List Nat) (passes : Nat) (hread : fs.read p = some d) :
    secure_delete fs rnd p passes noFaults =
      ⟨(eraseLoop fs rnd p (basename p) d.length (List.range' 1 passes)).1.remove p,
       (List.range' 1 passes).flatMap (passEvents rnd p d.length) ++ [.remove p],
       .infoStart (basename p) d.length passes ::
         ((List.range' 1 passes).map (Log.debugPass · (basename p))
           ++ [.infoDeleted (basename p) d.length]),
       true⟩ := by
  have h' : fs p = some d := hread
  have hex : fs.pathExists p = true := by simp [FS.pathExists, h']
  have hsize : fs.sizeOf p = d.length := by simp [FS.sizeOf, h']
  have h := secure_delete_existing fs rnd p passes none hex
  simp only [noFaults]
  rw [h]
  simp [eraseLoop_events, eraseLoop_logs, hsize]

/-- `secure_delete` on an existing file whose final `os.remove` raises
`e`, fully reduced. -/
theorem secure_delete_removeFault_spec (fs : FS) (rnd : Nat → Nat → List Nat)
    (p : String) (d : List Nat) (passes : Nat) (e : PyExc)
    (hread : fs.read p = some d) :
    secure_delete fs rnd p passes ⟨none, some e⟩ =
      ⟨(eraseLoop fs rnd p (basename p) d.length (List.range' 1 passes)).1,
       (List.range' 1 passes).flatMap (passEvents rnd p d.length),
       .infoStart (basename p) d.length passes ::
         ((List.range' 1 passes).map (Log.debugPass · (basename p)) ++ [logOfExc e p]),
       false⟩ := by
  have h' : fs p = some d := hread
  have hex : fs.pathExists p = true := by simp [FS.pathExists, h']
  have hsize : fs.sizeOf p = d.length := by simp [FS.sizeOf, h']
  rw [secure_delete_existing fs rnd p passes (some e) hex]
  simp [eraseLoop_events, eraseLoop_logs, hsize]

/-! ## Claims about `secure_delete` -/

/-- Sample filesystem holding one file `"f"` with a single byte. -/
def fsOneByte : FS := fun q => if q = "f" then some [7] else none

/-- A length-respecting stand-in for the random source. -/
def rndZero : Nat → Nat → List Nat := fun _ n => List.replicate n 0

/-- **C6** (confirmed): for every path that does not refer to an existing
file, `secure_delete` returns the failure outcome (`False`, after the
`File not found` warning — the code's rendering of `NotFound`) and
performs no filesystem effects at all: the event trace is empty and the
filesystem is returned unchanged. -/
theorem secure_delete_missing_path (fs : FS) (rnd : Nat → Nat → List Nat)
    (p : String) (passes : Nat) (faults : EraseFaults)
    (h : fs.pathExists p = false) :
    secure_delete fs rnd p passes faults = ⟨fs, [], [.warnNotFound p], false⟩ := by
  simp [secure_delete, h]

/-- Witness for `secure_delete_missing_path` on the empty filesystem. -/
theorem secure_delete_missing_path_witness :
    secure_delete (fun _ => none) rndZero "/does/not/exist" 3 noFaults
      = ⟨(fun _ => none), [], [.warnNotFound "/does/not/exist"], false⟩ :=
  secure_delete_missing_path _ _ _ _ _ rfl

/-- **C10** (confirmed): calling `secure_delete` with `passes = 0` on an
existing file runs `range(1, 1)`, i.e. zero overwrite passes — no
truncate, write, flush or fsync event occurs, so the original content is
never overwritten — yet the file is still unlinked and the call returns
`True`. -/
theorem secure_delete_zero_passes (fs : FS) (rnd : Nat → Nat → List Nat)
    (p : String) (d : List Nat) (h : fs.read p = some d) :
    secure_delete fs rnd p 0 noFaults =
      ⟨fs.remove p, [.remove p],
       [.infoStart (basename p) d.length 0, .infoDeleted (basename p) d.length],
       true⟩ := by
  simpa [eraseLoop] using secure_delete_ok_spec fs rnd p d 0 h

/-- Witness for `secure_delete_zero_passes` on a one-byte file. -/
theorem secure_delete_zero_passes_witness :
    secure_delete fsOneByte rndZero "f" 0 noFaults =
      ⟨FS.remove fsOneByte "f", [.remove "f"],
       [.infoStart "f" 1 0, .infoDeleted "f" 1], true⟩ := by
  have hb : basename "f" = "f" := rfl
  simpa [hb] using secure_delete_zero_passes fsOneByte rndZero "f" [7] rfl

/-- **C2** (confirmed): on an existing file of size `S` with
`passes ≥ 1`, `secure_delete` performs exactly `passes` overwrite
cycles in pass order — each drawing `S` fresh random bytes for its pass
index, writing them over the file, flushing and fsyncing before the next
cycle begins — then unlinks the file exactly once at the end; it returns
`True` exactly when the unlink succeeds, and `False` when the unlink
raises. -/
theorem secure_delete_erase_algorithm (fs : FS) (rnd : Nat → Nat → List Nat)
    (p : String) (d : List Nat) (passes : Nat)
    (hread : fs.read p = some d)
    (hr : ∀ i n, (rnd i n).length = n)
    (hp : 1 ≤ passes) :
    ((secure_delete fs rnd p passes noFaults).events
        = (List.range' 1 passes).flatMap (passEvents rnd p d.length) ++ [.remove p]
      ∧ (∀ i, (rnd i d.length).length = d.length)
      ∧ (secure_delete fs rnd p passes noFaults).ret = true
      ∧ (secure_delete fs rnd p passes noFaults).fs.read p = none)
    ∧ ∀ e : PyExc, (secure_delete fs rnd p passes ⟨none, some e⟩).ret = false := by
  rw [secure_delete_ok_spec fs rnd p d passes hread]
  refine ⟨⟨rfl, fun i => hr i d.length, rfl, by simp⟩, fun e => ?_⟩
  rw [secure_delete_removeFault_spec fs rnd p d passes e hread]

/-- Witness for `secure_delete_erase_algorithm`: a one-byte file erased
with three passes. -/
theorem secure_delete_erase_algorithm_witness :
    ((secure_delete fsOneByte rndZero "f" 3 noFaults).events
        = (List.range' 1 3).flatMap (passEvents rndZero "f" 1) ++ [.remove "f"]
      ∧ (∀ i, (rndZero i 1).length = 1)
      ∧ (secure_delete fsOneByte rndZero "f" 3 noFaults).ret = true
      ∧ (secure_delete fsOneByte rndZero "f" 3 noFaults).fs.read "f" = none)
    ∧ ∀ e : PyExc, (secure_delete fsOneByte rndZero "f" 3 ⟨none, some e⟩).ret = false :=
  secure_delete_erase_algorithm fsOneByte rndZero "f" [7] 3 rfl
    (fun _ n => List.length_replicate n 0) (by omega)

/-- **C4 counterexample**: the claim says each overwrite pass opens the
file *without truncating* it; but `secure_delete` opens with mode
`"wb"`, so already the first pass of this concrete one-byte erase emits
a truncation of the existing content. -/
theorem secure_delete_truncates_cex :
    FsEvent.truncate "f" ∈ (secure_delete fsOneByte rndZero "f" 1 noFaults).events := by
  decide

/-- **C4 amended**: each overwrite pass opens the file with mode `"wb"`
— truncating the existing content — and then writes exactly `S` fresh
random bytes in its place, so the pass still replaces the full `S`
bytes: the trace is `truncate; write (S bytes); flush; fsync` per pass,
and the content surviving a failed unlink is exactly the last pass's
`S` random bytes. -/
theorem secure_delete_pass_truncate_then_write (fs : FS) (rnd : Nat → Nat → List Nat)
    (p : String) (d : List Nat) (passes : Nat)
    (hread : fs.read p = some d)
    (hr : ∀ i n, (rnd i n).length = n)
    (hp : 1 ≤ passes) :
    (secure_delete fs rnd p passes noFaults).events
        = (List.range' 1 passes).flatMap (passEvents rnd p d.length) ++ [.remove p]
      ∧ (∀ i, passEvents rnd p d.length i
          = [.truncate p, .write p (rnd i d.length), .flush p, .fsync p])
      ∧ (∀ i, (rnd i d.length).length = d.length)
      ∧ ∀ e : PyExc, (secure_delete fs rnd p passes ⟨none, some e⟩).fs.read p
          = some (rnd passes d.length) := by
  have hne : List.range' 1 passes ≠ [] := by
    cases passes with
    | zero => omega
    | succ n => simp [List.range']
  have hlast : (List.range' 1 passes).getLastD 0 = passes := by
    cases passes with
    | zero => omega
    | succ n =>
      rw [List.range'_concat]
      simp [Nat.add_comm]
  refine ⟨?_, fun i => rfl, fun i => hr i d.length, fun e => ?_⟩
  · rw [secure_delete_ok_spec fs rnd p d passes hread]
  · rw [secure_delete_removeFault_spec fs rnd p d passes e hread]
    have h2 := eraseLoop_read fs rnd p (basename p) d.length (List.range' 1 passes) hne
    rw [hlast] at h2
    exact h2

/-- Witness for `secure_delete_pass_truncate_then_write` on a one-byte
file with two passes. -/
theorem secure_delete_pass_truncate_then_write_witness :
    (secure_delete fsOneByte rndZero "f" 2 noFaults).events
        = (List.range' 1 2).flatMap (passEvents rndZero "f" 1) ++ [.remove "f"]
      ∧ (∀ i, passEvents rndZero "f" 1 i
          = [.truncate "f", .write "f" (rndZero i 1), .flush "f", .fsync "f"])
      ∧ (∀ i, (rndZero i 1).length = 1)
      ∧ ∀ e : PyExc, (secure_delete fsOneByte rndZero "f" 2 ⟨none, some e⟩).fs.read "f"
          = some (rndZero 2 1) :=
  secure_delete_pass_truncate_then_write fsOneByte rndZero "f" [7] 2 rfl
    (fun _ n => List.length_replicate n 0) (by omega)

/-! ## base64url (RFC 4648 `urlsafe` alphabet with `=` padding)

`cryptography.fernet` transports both keys and tokens through
`base64.urlsafe_b64encode` / `urlsafe_b64decode`.  Bytes and characters
are `Nat` code points; `61` is `'='`. -/

/-- Character of a six-bit group in the urlsafe alphabet
`A-Z a-z 0-9 - _`. -/
def chr64 (s : Nat) : Nat :=
  if s < 26 then 65 + s
  else if s < 52 then 97 + (s - 26)
  else if s < 62 then 48 + (s - 52)
  else if s = 62 then 45
  else 95

/-- Six-bit group of an alphabet character; `none` off the alphabet. -/
def sextOf (c : Nat) : Option Nat :=
  if 65 ≤ c ∧ c ≤ 90 then some (c - 65)
  else if 97 ≤ c ∧ c ≤ 122 then some (c - 97 + 26)
  else if 48 ≤ c ∧ c ≤ 57 then some (c - 48 + 52)
  else if c = 45 then some 62
  else if c = 95 then some 63
  else none

/-- `base64.urlsafe_b64encode`: three input bytes become four alphabet
characters; a final group of one or two bytes is completed with `=`. -/
def b64encode : List Nat → List Nat
  | [] => []
  | [a] => [chr64 (a / 4), chr64 (a % 4 * 16), 61, 61]
  | [a, b] => [chr64 (a / 4), chr64 (a % 4 * 16 + b / 16), chr64 (b % 16 * 4), 61]
  | a :: b :: c :: rest =>
      chr64 (a / 4) :: chr64 (a % 4 * 16 + b / 16) :: chr64 (b % 16 * 4 + c / 64)
        :: chr64 (c % 64) :: b64encode rest

/-- `base64.urlsafe_b64decode`, strict on the alphabet: four characters
become three bytes, with `=`-padding accepted only as the final group;
`none` on malformed input (Python raises `binascii.Error`, which Fernet
turns into `InvalidToken`). -/
def b64decode : List Nat → Option (List Nat)
  | [] => some []
  | c1 :: c2 :: c3 :: c4 :: rest =>
    if c3 = 61 ∧ c4 = 61 ∧ rest = [] then
      match sextOf c1, sextOf c2 with
      | some s1, some s2 => if s2 % 16 = 0 then some [s1 * 4 + s2 / 16] else none
      | _, _ => none
    else if c4 = 61 ∧ rest = [] then
      match sextOf c1, sextOf c2, sextOf c3 with
      | some s1, some s2, some s3 =>
        if s3 % 4 = 0 then some [s1 * 4 + s2 / 16, s2 % 16 * 16 + s3 / 4] else none
      | _, _, _ => none
    else
      match sextOf c1, sextOf c2, sextOf c3, sextOf c4, b64decode rest with
      | some s1, some s2, some s3, some s4, some bs =>
        some ((s1 * 4 + s2 / 16) :: (s2 % 16 * 16 + s3 / 4) :: (s3 % 4 * 64 + s4) :: bs)
      | _, _, _, _, _ => none
  | _ => none

/-! ## PKCS7 padding and CBC chaining on 16-byte blocks -/

/-- PKCS7: append `16 - n % 16` copies of that same value (always a
non-empty suffix; an exact multiple gains a full block). -/
def pkcs7pad (p : List Nat) : List Nat :=
  p ++ List.replicate (16 - p.length % 16) (16 - p.length % 16)

/-- PKCS7 removal: the last byte `n` must be `1..16` and the last `n`
bytes must all equal `n`; otherwise the unpadder raises, i.e. `none`. -/
def pkcs7unpad (l : List Nat) : Option (List Nat) :=
  match l.getLast? with
  | none => none
  | some n =>
    if 1 ≤ n ∧ n ≤ 16 ∧ n ≤ l.length ∧ (l.drop (l.length - n)).all (· == n)
    then some (l.take (l.length - n))
    else none

/-- Split into 16-byte blocks (fuel-driven so that it is structurally
recursive; `chunk16` supplies the list's own length as fuel). -/
def chunkGo : Nat → List Nat → List (List Nat)
  | 0, _ => []
  | _, [] => []
  | fuel + 1, l => l.take 16 :: chunkGo fuel (l.drop 16)

/-- Split a block-aligned byte list into its 16-byte blocks. -/
def chunk16 (l : List Nat) : List (List Nat) := chunkGo l.length l

/-- Stand-in for the AES-128 block encryption of the external
`cryptography` library (not part of this repository): a key-indexed
permutation of 16-byte blocks, here bytewise XOR with the 16-byte
encryption key.  Only its interface properties — it is a
length-preserving bijection on blocks, inverted by `blockDec` — are
used anywhere below. -/
def blockEnc (k b : List Nat) : List Nat := List.zipWith Nat.xor b k

/-- Inverse block permutation (XOR is an involution). -/
def blockDec (k c : List Nat) : List Nat := List.zipWith Nat.xor c k

/-- CBC encryption over a block list: each plaintext block is XORed with
the previous ciphertext block (initially the IV) and then enciphered. -/
def cbcEncBlocks (k : List Nat) : List Nat → List (List Nat) → List (List Nat)
  | _, [] => []
  | prev, b :: rest =>
    let c := blockEnc k (List.zipWith Nat.xor b prev)
    c :: cbcEncBlocks k c rest

/-- CBC decryption over a block list. -/
def cbcDecBlocks (k : List Nat) : List Nat → List (List Nat) → List (List Nat)
  | _, [] => []
  | prev, c :: rest =>
    List.zipWith Nat.xor (blockDec k c) prev :: cbcDecBlocks k c rest

/-- CBC encryption of a block-aligned byte list. -/
def cbcEnc (k iv pt : List Nat) : List Nat := (cbcEncBlocks k iv (chunk16 pt)).flatten

/-- CBC decryption of a block-aligned byte list. -/
def cbcDec (k iv ct : List Nat) : List Nat := (cbcDecBlocks k iv (chunk16 ct)).flatten

/-! ## HMAC and the Fernet token -/

/-- Mixing fold feeding the MAC stand-in. -/
def hmacFold (sk msg : List Nat) : Nat :=
  (sk ++ msg).foldl (fun a b => (a * 257 + b + 1) % 4294967291) 7

/-- Stand-in for HMAC-SHA256 of the external `cryptography` library (not
part of this repository): a deterministic 32-byte tag of the signing
key and message.  Only determinism and the fixed 32-byte length are used
anywhere below; that tampering actually changes the tag is a
computational property of real HMAC outside the reach of this model. -/
def hmacModel (sk msg : List Nat) : List Nat :=
  (List.range 32).map (fun i => (hmacFold sk msg * (i + 1) + i * i + i) % 256)

/-- `Fernet(key)`: `base64.urlsafe_b64decode` the 44-character key and
require exactly 32 bytes (`ValueError` otherwise, i.e. `none`); the
first 16 bytes sign, the last 16 encrypt. -/
def parseFernetKey (key : List Nat) : Option (List Nat × List Nat) :=
  match b64decode key with
  | none => none
  | some kb => if kb.length = 32 then some (kb.take 16, kb.drop 16) else none

/-- `Fernet.encrypt` with the freshly drawn 16-byte IV and the 8-byte
big-endian timestamp passed in explicitly: the token is the base64url
encoding of `0x80 ‖ timestamp ‖ IV ‖ CBC(PKCS7(plaintext)) ‖ HMAC`. -/
def fernetEncToken (sk ek ts iv p : List Nat) : List Nat :=
  let ct := cbcEnc ek iv (pkcs7pad p)
  let basic := 128 :: (ts ++ (iv ++ ct))
  b64encode (basic ++ hmacModel sk basic)

/-- `Fernet.decrypt`: base64-decode the token; reject when it is shorter
than nine bytes or its version byte is not `0x80`; recompute the HMAC of
everything but the last 32 bytes and reject a mismatch; CBC-decrypt
`data[25:-32]` under the IV `data[9:25]` and strip the PKCS7 padding.
Every rejection is the single `InvalidToken` outcome, i.e. `none`. -/
def fernetDecToken (sk ek token : List Nat) : Option (List Nat) :=
  match b64decode token with
  | none => none
  | some data =>
    if data.length < 9 then none
    else if data.headD 0 ≠ 128 then none
    else if hmacModel sk (data.take (data.length - 32)) ≠ data.drop (data.length - 32)
    then none
    else
      let iv := (data.drop 9).take 16
      let ct := (data.drop 25).take (data.length - 57)
      if ct.length % 16 ≠ 0 then none
      else pkcs7unpad (cbcDec ek iv ct)

/-! ## `generate_key`, `encrypt_file`, `decrypt_file` -/

/-- `generate_key()` = `Fernet.generate_key()` =
`base64.urlsafe_b64encode(os.urandom(32))`; the 32 random bytes are the
explicit argument. -/
def generate_key (k32 : List Nat) : List Nat := b64encode k32

/-- The result of one `encrypt_file` / `decrypt_file` call: final
filesystem, effect trace, log records, and the returned value
(`output path` or Python's `None`). -/
structure OpResult where
  fs : FS
  events : List FsEvent
  logs : List Log
  ret : Option String

/-- `encrypt_file(file_path, key)` from `src/file_operations.py`: read
the whole file, build the Fernet cipher from `key`, encrypt, and write
the token to `file_path + '.encrypted'`, returning that path.  A
missing input file or an invalid key raises inside the `try` and the
single `except Exception` handler logs an error and returns `None`.
The fresh IV and the timestamp are explicit arguments. -/
def encrypt_file (fs : FS) (file_path : String) (key ts iv : List Nat) : OpResult :=
  match fs.read file_path with
  | none => ⟨fs, [], [.errEncrypt file_path], none⟩
  | some file_data =>
    match parseFernetKey key with
    | none => ⟨fs, [], [.errEncrypt file_path], none⟩
    | some (sk, ek) =>
      let encrypted_data := fernetEncToken sk ek ts iv file_data
      let encrypted_path := file_path ++ ".encrypted"
      ⟨fs.write encrypted_path encrypted_data,
       [.write encrypted_path encrypted_data],
       [.infoEncrypted (basename file_path) (basename encrypted_path)],
       some encrypted_path⟩

/-- Python's `str.endswith` on code points. -/
def pyEndsWith (s suffix : String) : Bool :=
  suffix.data.length ≤ s.data.length
    && s.data.drop (s.data.length - suffix.data.length) == suffix.data

/-- Python's `s[:-n]` on code points (for `n ≤ len(s)`). -/
def pyDropRight (s : String) (n : Nat) : String :=
  String.mk (s.data.take (s.data.length - n))

/-- `decrypt_file(encrypted_path, key, output_path=None)` from
`src/file_operations.py`: read the envelope, build the cipher, decrypt
— `fernet.decrypt` raising `InvalidToken` before any output path is
even computed — then derive the output path (strip a trailing
`'.encrypted'`, else append `'.decrypted'`) when none was supplied,
write the plaintext there and return that path.  Any exception is
caught by the single `except Exception` handler: log an error, return
`None`. -/
def decrypt_file (fs : FS) (encrypted_path : String) (key : List Nat)
    (output_path : Option String) : OpResult :=
  match fs.read encrypted_path with
  | none => ⟨fs, [], [.errDecrypt encrypted_path], none⟩
  | some encrypted_data =>
    match parseFernetKey key with
    | none => ⟨fs, [], [.errDecrypt encrypted_path], none⟩
    | some (sk, ek) =>
      match fernetDecToken sk ek encrypted_data with
      | none => ⟨fs, [], [.errDecrypt encrypted_path], none⟩
      | some decrypted_data =>
        let out :=
          match output_path with
          | some o => o
          | none =>
            if pyEndsWith encrypted_path ".encrypted"
            then pyDropRight encrypted_path 10
            else encrypted_path ++ ".decrypted"
        ⟨fs.write out decrypted_data,
         [.write out decrypted_data],
         [.infoDecrypted (basename encrypted_path) (basename out)],
         some out⟩

/-! ## Key codec at the GUI boundary (`src/main.py`)

`encrypt_selected_file` renders the key with `key.decode('utf-8')`
(`to_text`); `decrypt_selected_file` parses it back with
`key_str.encode('utf-8')` (`from_text`).  UTF-8 is modelled on the
ASCII plane, which contains every base64url key token. -/

/-- `key.decode('utf-8')` for ASCII byte strings: the identity on the
code points; `none` outside the modelled ASCII range. -/
def keyToText (key : List Nat) : Option (List Nat) :=
  if key.all (· < 128) then some key else none

/-- `key_str.encode('utf-8')` for ASCII strings: the identity on the
code points; `none` outside the modelled ASCII range. -/
def keyFromText (s : List Nat) : Option (List Nat) :=
  if s.all (· < 128) then some s else none

/-! ## base64url lemmas -/

theorem chr64_lt_128 (s : Nat) : chr64 s < 128 := by
  unfold chr64
  split_ifs <;> omega

theorem chr64_ne_61 (s : Nat) : chr64 s ≠ 61 := by
  unfold chr64
  split_ifs <;> omega

theorem sextOf_chr64 : ∀ s, s < 64 → sextOf (chr64 s) = some s := by decide

theorem b64encode_mem_lt_128 : ∀ l : List Nat, ∀ x ∈ b64encode l, x < 128
  | [] => by simp [b64encode]
  | [a] => by
    simp only [b64encode, List.mem_cons, List.not_mem_nil, or_false]
    rintro x (rfl | rfl | rfl | rfl) <;> first | exact chr64_lt_128 _ | omega
  | [a, b] => by
    simp only [b64encode, List.mem_cons, List.not_mem_nil, or_false]
    rintro x (rfl | rfl | rfl | rfl) <;> first | exact chr64_lt_128 _ | omega
  | a :: b :: c :: rest => by
    simp only [b64encode, List.mem_cons]
    rintro x (rfl | rfl | rfl | rfl | hx) <;>
      first
      | exact chr64_lt_128 _
      | exact b64encode_mem_lt_128 rest x hx

theorem b64encode_length :
    ∀ l : List Nat, (b64encode l).length = (l.length + 2) / 3 * 4
  | [] => rfl
  | [_] => by simp [b64encode]
  | [_, _] => by simp [b64encode]
  | a :: b :: c :: rest => by
    simp only [b64encode, List.length_cons]
    rw [b64encode_length rest]
    omega

theorem b64_roundtrip :
    ∀ l : List Nat, (∀ x ∈ l, x < 256) → b64decode (b64encode l) = some l
  | [], _ => rfl
  | [a], h => by
    have ha : a < 256 := h a (by simp)
    have h1 : sextOf (chr64 (a / 4)) = some (a / 4) := sextOf_chr64 _ (by omega)
    have h2 : sextOf (chr64 (a % 4 * 16)) = some (a % 4 * 16) := sextOf_chr64 _ (by omega)
    simp only [b64encode, b64decode]
    simp [h1, h2, Nat.mul_mod_left]
    omega
  | [a, b], h => by
    have ha : a < 256 := h a (by simp)
    have hb : b < 256 := h b (by simp)
    have h1 : sextOf (chr64 (a / 4)) = some (a / 4) := sextOf_chr64 _ (by omega)
    have h2 : sextOf (chr64 (a % 4 * 16 + b / 16)) = some (a % 4 * 16 + b / 16) :=
      sextOf_chr64 _ (by omega)
    have h3 : sextOf (chr64 (b % 16 * 4)) = some (b % 16 * 4) := sextOf_chr64 _ (by omega)
    simp only [b64encode, b64decode]
    simp [h1, h2, h3, chr64_ne_61 (b % 16 * 4), Nat.mul_mod_left]
    omega
  | a :: b :: c :: rest, h => by
    have ha : a < 256 := h a (by simp)
    have hb : b < 256 := h b (by simp)
    have hc : c < 256 := h c (by simp)
    have h1 : sextOf (chr64 (a / 4)) = some (a / 4) := sextOf_chr64 _ (by omega)
    have h2 : sextOf (chr64 (a % 4 * 16 + b / 16)) = some (a % 4 * 16 + b / 16) :=
      sextOf_chr64 _ (by omega)
    have h3 : sextOf (chr64 (b % 16 * 4 + c / 64)) = some (b % 16 * 4 + c / 64) :=
      sextOf_chr64 _ (by omega)
    have h4 : sextOf (chr64 (c % 64)) = some (c % 64) := sextOf_chr64 _ (by omega)
    have ih : b64decode (b64encode rest) = some rest :=
      b64_roundtrip rest (fun x hx => h x (by simp [hx]))
    simp only [b64encode, b64decode]
    simp [h1, h2, h3, h4, ih, chr64_ne_61 (b % 16 * 4 + c / 64), chr64_ne_61 (c % 64)]
    omega

/-! ## CBC, chunking and padding lemmas -/

theorem zipWith_xor_cancel :
    ∀ (x y : List Nat), x.length = y.length →
      List.zipWith Nat.xor (List.zipWith Nat.xor x y) y = x
  | [], [], _ => rfl
  | x :: xs, y :: ys, h => by
    simp only [List.zipWith_cons_cons, List.cons.injEq]
    exact ⟨Nat.xor_cancel_right y x, zipWith_xor_cancel xs ys (by simpa using h)⟩

theorem zipWith_xor_mem_lt (x y : List Nat)
    (hx : ∀ a ∈ x, a < 256) (hy : ∀ a ∈ y, a < 256) :
    ∀ a ∈ List.zipWith Nat.xor x y, a < 256 := by
  intro a ha
  obtain ⟨i, hi, rfl⟩ := List.mem_iff_getElem.mp ha
  rw [List.getElem_zipWith]
  have h8 : (256 : Nat) = 2 ^ 8 := by norm_num
  rw [h8]
  exact Nat.xor_lt_two_pow
    (h8 ▸ hx _ (List.getElem_mem _))
    (h8 ▸ hy _ (List.getElem_mem _))

theorem blockDec_blockEnc (k b : List Nat) (h : b.length = k.length) :
    blockDec k (blockEnc k b) = b :=
  zipWith_xor_cancel b k h

theorem cbcDecBlocks_cbcEncBlocks (k : List Nat) (hk : k.length = 16) :
    ∀ (bs : List (List Nat)) (prev : List Nat), prev.length = 16 →
      (∀ b ∈ bs, b.length = 16) →
      cbcDecBlocks k prev (cbcEncBlocks k prev bs) = bs
  | [], _, _, _ => rfl
  | b :: rest, prev, hprev, hbs => by
    have hb : b.length = 16 := hbs b (by simp)
    have hxor : (List.zipWith Nat.xor b prev).length = 16 := by
      simp [List.length_zipWith, hb, hprev]
    have hc : (blockEnc k (List.zipWith Nat.xor b prev)).length = 16 := by
      simp [blockEnc, List.length_zipWith, hxor, hk]
    simp only [cbcEncBlocks, cbcDecBlocks, List.cons.injEq]
    refine ⟨?_, cbcDecBlocks_cbcEncBlocks k hk rest _ hc
      (fun b' hb' => hbs b' (by simp [hb']))⟩
    rw [blockDec_blockEnc k _ (by omega)]
    exact zipWith_xor_cancel b prev (by omega)

theorem cbcEncBlocks_blocks (k : List Nat) (hk : k.length = 16) :
    ∀ (bs : List (List Nat)) (prev : List Nat), prev.length = 16 →
      (∀ b ∈ bs, b.length = 16) →
      (∀ c ∈ cbcEncBlocks k prev bs, c.length = 16)
        ∧ (cbcEncBlocks k prev bs).length = bs.length
  | [], _, _, _ => by simp [cbcEncBlocks]
  | b :: rest, prev, hprev, hbs => by
    have hb : b.length = 16 := hbs b (by simp)
    have hc : (blockEnc k (List.zipWith Nat.xor b prev)).length = 16 := by
      simp [blockEnc, List.length_zipWith, hb, hprev, hk]
    have ih := cbcEncBlocks_blocks k hk rest (blockEnc k (List.zipWith Nat.xor b prev))
      hc (fun b' hb' => hbs b' (by simp [hb']))
    constructor
    · intro c hc'
      simp only [cbcEncBlocks, List.mem_cons] at hc'
      rcases hc' with rfl | hc'
      · exact hc
      · exact ih.1 c hc'
    · simp only [cbcEncBlocks, List.length_cons, ih.2]

theorem cbcEncBlocks_mem_lt (k : List Nat) (hkB : ∀ a ∈ k, a < 256) :
    ∀ (bs : List (List Nat)) (prev : List Nat), (∀ a ∈ prev, a < 256) →
      (∀ b ∈ bs, ∀ a ∈ b, a < 256) →
      ∀ c ∈ cbcEncBlocks k prev bs, ∀ a ∈ c, a < 256
  | [], _, _, _ => by simp [cbcEncBlocks]
  | b :: rest, prev, hprev, hbs => by
    have hb : ∀ a ∈ b, a < 256 := hbs b (by simp)
    have hcB : ∀ a ∈ blockEnc k (List.zipWith Nat.xor b prev), a < 256 :=
      zipWith_xor_mem_lt _ _ (zipWith_xor_mem_lt _ _ hb hprev) hkB
    intro c hc
    simp only [cbcEncBlocks, List.mem_cons] at hc
    rcases hc with rfl | hc
    · exact hcB
    · exact cbcEncBlocks_mem_lt k hkB rest _ hcB
        (fun b' hb' => hbs b' (by simp [hb'])) c hc

theorem chunkGo_flatten :
    ∀ (fuel : Nat) (l : List Nat), l.length ≤ fuel → (chunkGo fuel l).flatten = l
  | 0, l, h => by
    have : l = [] := List.eq_nil_of_length_eq_zero (by omega)
    simp [this, chunkGo]
  | fuel + 1, [], _ => rfl
  | fuel + 1, x :: xs, h => by
    simp only [List.length_cons] at h
    simp only [chunkGo, List.flatten_cons]
    rw [chunkGo_flatten fuel ((x :: xs).drop 16)
      (by simp only [List.length_drop, List.length_cons]; omega)]
    exact List.take_append_drop 16 (x :: xs)

theorem chunkGo_blocks :
    ∀ (fuel : Nat) (l : List Nat), l.length ≤ fuel → l.length % 16 = 0 →
      ∀ b ∈ chunkGo fuel l, b.length = 16
  | 0, _, _, _ => by
    intro b hb
    simp [chunkGo] at hb
  | fuel + 1, [], _, _ => by
    intro b hb
    simp [chunkGo] at hb
  | fuel + 1, x :: xs, h, hdvd => by
    intro b hb
    simp only [List.length_cons] at h hdvd
    have hlen : 16 ≤ xs.length + 1 := by
      by_contra hlt
      omega
    simp only [chunkGo, List.mem_cons] at hb
    rcases hb with rfl | hb'
    · simp only [List.length_take, List.length_cons]
      omega
    · exact chunkGo_blocks fuel ((x :: xs).drop 16)
        (by simp only [List.length_drop, List.length_cons]; omega)
        (by simp only [List.length_drop, List.length_cons]; omega) b hb'

theorem chunk16_flatten (l : List Nat) : (chunk16 l).flatten = l :=
  chunkGo_flatten l.length l le_rfl

theorem chunk16_blocks (l : List Nat) (h : l.length % 16 = 0) :
    ∀ b ∈ chunk16 l, b.length = 16 :=
  chunkGo_blocks l.length l le_rfl h

theorem flatten_blocks_length :
    ∀ bs : List (List Nat), (∀ b ∈ bs, b.length = 16) →
      bs.flatten.length = 16 * bs.length
  | [], _ => rfl
  | b :: rest, h => by
    simp only [List.flatten_cons, List.length_append, List.length_cons,
      h b (by simp), flatten_blocks_length rest (fun b' hb' => h b' (by simp [hb']))]
    ring

theorem chunkGo_flatten_blocks :
    ∀ (fuel : Nat) (bs : List (List Nat)), (∀ b ∈ bs, b.length = 16) →
      bs.flatten.length ≤ fuel → chunkGo fuel bs.flatten = bs
  | fuel, [], _, _ => by cases fuel <;> rfl
  | fuel, b :: rest, hbs, h => by
    have hb : b.length = 16 := hbs b (by simp)
    obtain ⟨x, xs, rfl⟩ : ∃ x xs, b = x :: xs := by
      cases b with
      | nil => simp at hb
      | cons x xs => exact ⟨x, xs, rfl⟩
    have hflat : ((x :: xs) :: rest).flatten = x :: (xs ++ rest.flatten) := by simp
    have hlen : ((x :: xs) :: rest).flatten.length = 16 + rest.flatten.length := by
      simp only [List.flatten_cons, List.length_append, hb]
    obtain ⟨fuel', rfl⟩ : ∃ f, fuel = f + 1 := by
      refine ⟨fuel - 1, ?_⟩
      omega
    rw [hflat]
    simp only [chunkGo]
    rw [← hflat]
    simp only [List.flatten_cons]
    rw [List.take_left' hb, List.drop_left' hb,
      chunkGo_flatten_blocks fuel' rest (fun b' hb' => hbs b' (by simp [hb'])) (by omega)]

theorem chunk16_of_flatten (bs : List (List Nat)) (h : ∀ b ∈ bs, b.length = 16) :
    chunk16 bs.flatten = bs :=
  chunkGo_flatten_blocks _ bs h le_rfl

theorem cbcDec_cbcEnc (k iv pt : List Nat) (hk : k.length = 16) (hiv : iv.length = 16)
    (hpt : pt.length % 16 = 0) : cbcDec k iv (cbcEnc k iv pt) = pt := by
  have hblocks := chunk16_blocks pt hpt
  have henc := cbcEncBlocks_blocks k hk (chunk16 pt) iv hiv hblocks
  unfold cbcDec cbcEnc
  rw [chunk16_of_flatten _ henc.1,
    cbcDecBlocks_cbcEncBlocks k hk (chunk16 pt) iv hiv hblocks, chunk16_flatten]

theorem cbcEnc_length (k iv pt : List Nat) (hk : k.length = 16) (hiv : iv.length = 16)
    (hpt : pt.length % 16 = 0) : (cbcEnc k iv pt).length = pt.length := by
  have hblocks := chunk16_blocks pt hpt
  have henc := cbcEncBlocks_blocks k hk (chunk16 pt) iv hiv hblocks
  unfold cbcEnc
  rw [flatten_blocks_length _ henc.1, henc.2, ← flatten_blocks_length _ hblocks,
    chunk16_flatten]

theorem cbcEnc_mem_lt (k iv pt : List Nat) (hkB : ∀ a ∈ k, a < 256)
    (hivB : ∀ a ∈ iv, a < 256) (hptB : ∀ a ∈ pt, a < 256) :
    ∀ a ∈ cbcEnc k iv pt, a < 256 := by
  intro a ha
  rw [cbcEnc, List.mem_flatten] at ha
  obtain ⟨c, hc, ha⟩ := ha
  refine cbcEncBlocks_mem_lt k hkB (chunk16 pt) iv hivB ?_ c hc a ha
  intro b hb a' ha'
  have : a' ∈ (chunk16 pt).flatten := List.mem_flatten.mpr ⟨b, hb, ha'⟩
  rw [chunk16_flatten] at this
  exact hptB a' this

theorem pkcs7unpad_pkcs7pad (p : List Nat) : pkcs7unpad (pkcs7pad p) = some p := by
  obtain ⟨m, hm⟩ : ∃ m, 16 - p.length % 16 = m := ⟨_, rfl⟩
  have hm1 : 1 ≤ m := by omega
  have hm16 : m ≤ 16 := by omega
  have hpad : pkcs7pad p = p ++ List.replicate m m := by rw [pkcs7pad, hm]
  obtain ⟨m', hm'⟩ : ∃ m', m = m' + 1 := ⟨m - 1, by omega⟩
  have hrep : (List.replicate m m : List Nat) ≠ [] := by
    rw [hm']
    simp
  have hlast : (pkcs7pad p).getLast? = some m := by
    conv_lhs => rw [hpad]
    rw [List.getLast?_append_of_ne_nil _ hrep]
    conv_lhs => rw [hm', List.replicate_succ']
    rw [List.getLast?_append_of_ne_nil _ (by simp)]
    simp [hm']
  have hlen : (pkcs7pad p).length = p.length + m := by simp [hpad]
  have hcond : 1 ≤ m ∧ m ≤ 16 ∧ m ≤ (pkcs7pad p).length ∧
      (((pkcs7pad p).drop ((pkcs7pad p).length - m)).all (· == m)) = true := by
    refine ⟨hm1, hm16, by omega, ?_⟩
    conv_lhs => rw [hlen, Nat.add_sub_cancel, hpad, List.drop_left]
    rw [List.all_eq_true]
    intro x hx
    simp [List.eq_of_mem_replicate hx]
  rw [pkcs7unpad, hlast]
  simp only [if_pos hcond]
  rw [hlen, Nat.add_sub_cancel]
  conv_lhs => rw [hpad, List.take_left]

theorem pkcs7pad_length_mod (p : List Nat) : (pkcs7pad p).length % 16 = 0 := by
  simp only [pkcs7pad, List.length_append, List.length_replicate]
  omega

theorem pkcs7pad_mem_lt (p : List Nat) (hp : ∀ a ∈ p, a < 256) :
    ∀ a ∈ pkcs7pad p, a < 256 := by
  intro a ha
  rw [pkcs7pad, List.mem_append] at ha
  rcases ha with ha | ha
  · exact hp a ha
  · have := List.eq_of_mem_replicate ha
    omega

theorem hmacModel_length (sk msg : List Nat) : (hmacModel sk msg).length = 32 := by
  simp [hmacModel]

theorem hmacModel_mem_lt (sk msg : List Nat) : ∀ a ∈ hmacModel sk msg, a < 256 := by
  intro a ha
  rw [hmacModel, List.mem_map] at ha
  obtain ⟨i, _, rfl⟩ := ha
  exact Nat.mod_lt _ (by omega)

/-! ## Fernet token lemmas -/

theorem fernetDecToken_fernetEncToken (sk ek ts iv p : List Nat)
    (hek : ek.length = 16) (hekB : ∀ a ∈ ek, a < 256)
    (hts : ts.length = 8) (htsB : ∀ a ∈ ts, a < 256)
    (hiv : iv.length = 16) (hivB : ∀ a ∈ iv, a < 256)
    (hp : ∀ a ∈ p, a < 256) :
    fernetDecToken sk ek (fernetEncToken sk ek ts iv p) = some p := by
  obtain ⟨ct, hctdef⟩ : ∃ ct, cbcEnc ek iv (pkcs7pad p) = ct := ⟨_, rfl⟩
  have hctlen : ct.length = (pkcs7pad p).length := by
    rw [← hctdef]
    exact cbcEnc_length ek iv _ hek hiv (pkcs7pad_length_mod p)
  have hctMod : ct.length % 16 = 0 := by rw [hctlen]; exact pkcs7pad_length_mod p
  have hctB : ∀ a ∈ ct, a < 256 := by
    rw [← hctdef]
    exact cbcEnc_mem_lt ek iv _ hekB hivB (pkcs7pad_mem_lt p hp)
  obtain ⟨tag, htagdef⟩ : ∃ t, hmacModel sk (128 :: (ts ++ (iv ++ ct))) = t := ⟨_, rfl⟩
  have htaglen : tag.length = 32 := by rw [← htagdef, hmacModel_length]
  have htagB : ∀ a ∈ tag, a < 256 := by rw [← htagdef]; exact hmacModel_mem_lt _ _
  have henc : fernetEncToken sk ek ts iv p
      = b64encode (128 :: (ts ++ (iv ++ (ct ++ tag)))) := by
    simp only [fernetEncToken, hctdef, htagdef, List.cons_append, List.append_assoc]
  have hall : ∀ a ∈ (128 :: (ts ++ (iv ++ (ct ++ tag)))), a < 256 := by
    intro a ha
    simp only [List.mem_cons, List.mem_append] at ha
    rcases ha with rfl | ha | ha | ha | ha
    · omega
    · exact htsB a ha
    · exact hivB a ha
    · exact hctB a ha
    · exact htagB a ha
  have hdec := b64_roundtrip _ hall
  rw [henc]
  simp only [fernetDecToken, hdec]
  have hlen : (128 :: (ts ++ (iv ++ (ct ++ tag)))).length = ct.length + 57 := by
    simp [hts, hiv, htaglen]
    omega
  simp only [hlen]
  rw [if_neg (by omega)]
  rw [if_neg (by simp)]
  have htake : (128 :: (ts ++ (iv ++ (ct ++ tag)))).take (ct.length + 57 - 32)
      = 128 :: (ts ++ (iv ++ ct)) := by
    rw [show ct.length + 57 - 32 = (ts.length + (iv.length + ct.length)) + 1 by
      rw [hts, hiv]; omega]
    rw [List.take_succ_cons, List.take_append, List.take_append,
      show ct.length = ct.length + 0 by omega, List.take_append, List.take_zero,
      List.append_nil]
  have hdrop : (128 :: (ts ++ (iv ++ (ct ++ tag)))).drop (ct.length + 57 - 32) = tag := by
    rw [show ct.length + 57 - 32 = (ts.length + (iv.length + ct.length)) + 1 by
      rw [hts, hiv]; omega]
    rw [List.drop_succ_cons, List.drop_append, List.drop_append,
      show ct.length = ct.length + 0 by omega, List.drop_append, List.drop_zero]
  rw [htake, hdrop, htagdef, if_neg (by simp)]
  have hiv' : ((128 :: (ts ++ (iv ++ (ct ++ tag)))).drop 9).take 16 = iv := by
    rw [show (9 : Nat) = ts.length + 1 by rw [hts], List.drop_succ_cons, List.drop_left,
      show (16 : Nat) = iv.length by rw [hiv], List.take_left]
  have hct' : ((128 :: (ts ++ (iv ++ (ct ++ tag)))).drop 25).take (ct.length + 57 - 57)
      = ct := by
    rw [show (25 : Nat) = (ts.length + iv.length) + 1 by rw [hts, hiv],
      List.drop_succ_cons, List.drop_append, List.drop_left,
      Nat.add_sub_cancel, List.take_left]
  rw [hiv', hct', if_neg (by omega), ← hctdef,
    cbcDec_cbcEnc ek iv (pkcs7pad p) hek hiv (pkcs7pad_length_mod p)]
  exact pkcs7unpad_pkcs7pad p

theorem parseFernetKey_b64encode (kb : List Nat) (h32 : kb.length = 32)
    (hB : ∀ a ∈ kb, a < 256) :
    parseFernetKey (b64encode kb) = some (kb.take 16, kb.drop 16) := by
  simp [parseFernetKey, b64_roundtrip kb hB, h32]

/-! ## Claims about the encryption envelope -/

/-- Unfolding `encrypt_file` on a readable file under a parsable key. -/
theorem encrypt_file_ok (fs : FS) (path : String) (p key ts iv sk ek : List Nat)
    (hread : fs.read path = some p)
    (hkey : parseFernetKey key = some (sk, ek)) :
    encrypt_file fs path key ts iv =
      ⟨fs.write (path ++ ".encrypted") (fernetEncToken sk ek ts iv p),
       [.write (path ++ ".encrypted") (fernetEncToken sk ek ts iv p)],
       [.infoEncrypted (basename path) (basename (path ++ ".encrypted"))],
       some (path ++ ".encrypted")⟩ := by
  simp only [encrypt_file, hread, hkey]

/-- Unfolding `decrypt_file` when the token authenticates, with no
explicit output path. -/
theorem decrypt_file_ok (fs : FS) (path : String) (tok key d sk ek : List Nat)
    (hread : fs.read path = some tok)
    (hkey : parseFernetKey key = some (sk, ek))
    (hfd : fernetDecToken sk ek tok = some d) :
    decrypt_file fs path key none =
      ⟨fs.write (if pyEndsWith path ".encrypted" then pyDropRight path 10
          else path ++ ".decrypted") d,
       [.write (if pyEndsWith path ".encrypted" then pyDropRight path 10
          else path ++ ".decrypted") d],
       [.infoDecrypted (basename path)
          (basename (if pyEndsWith path ".encrypted" then pyDropRight path 10
            else path ++ ".decrypted"))],
       some (if pyEndsWith path ".encrypted" then pyDropRight path 10
          else path ++ ".decrypted")⟩ := by
  simp only [decrypt_file, hread, hkey, hfd]

/-- **C1** (confirmed): for every valid Fernet key (the transport
encoding of any 32 random bytes) and every byte sequence `p` — the
empty one included — encrypting a file holding `p` with `encrypt_file`
and decrypting the produced envelope with `decrypt_file` under the same
key succeeds and the decrypted file holds exactly the bytes `p`. -/
theorem encrypt_decrypt_roundtrip (fs : FS) (path : String) (p kb ts iv : List Nat)
    (hread : fs.read path = some p)
    (hpB : ∀ a ∈ p, a < 256)
    (hkb : kb.length = 32) (hkbB : ∀ a ∈ kb, a < 256)
    (hts : ts.length = 8) (htsB : ∀ a ∈ ts, a < 256)
    (hiv : iv.length = 16) (hivB : ∀ a ∈ iv, a < 256) :
    (encrypt_file fs path (generate_key kb) ts iv).ret = some (path ++ ".encrypted")
    ∧ ∃ out, (decrypt_file (encrypt_file fs path (generate_key kb) ts iv).fs
        (path ++ ".encrypted") (generate_key kb) none).ret = some out
      ∧ (decrypt_file (encrypt_file fs path (generate_key kb) ts iv).fs
          (path ++ ".encrypted") (generate_key kb) none).fs.read out = some p := by
  have hkey : parseFernetKey (generate_key kb) = some (kb.take 16, kb.drop 16) := by
    simpa [generate_key] using parseFernetKey_b64encode kb hkb hkbB
  have hek : (kb.drop 16).length = 16 := by simp [hkb]
  have hekB : ∀ a ∈ kb.drop 16, a < 256 := fun a ha => hkbB a (List.mem_of_mem_drop ha)
  have hfd := fernetDecToken_fernetEncToken (kb.take 16) (kb.drop 16) ts iv p
    hek hekB hts htsB hiv hivB hpB
  rw [encrypt_file_ok fs path p (generate_key kb) ts iv _ _ hread hkey]
  refine ⟨rfl, ?_⟩
  rw [decrypt_file_ok _ (path ++ ".encrypted") _ (generate_key kb) p _ _
    (FS.read_write_self fs _ _) hkey hfd]
  exact ⟨_, rfl, FS.read_write_self _ _ _⟩

/-- Sample filesystem holding one three-byte file `"a"`. -/
def fsABC : FS := fun q => if q = "a" then some [1, 2, 3] else none

/-- Witness for `encrypt_decrypt_roundtrip`: a three-byte file under the
all-indices key. -/
theorem encrypt_decrypt_roundtrip_witness :
    (encrypt_file fsABC "a" (generate_key (List.range 32)) (List.replicate 8 0)
        (List.range 16)).ret = some ("a" ++ ".encrypted")
    ∧ ∃ out, (decrypt_file (encrypt_file fsABC "a" (generate_key (List.range 32))
          (List.replicate 8 0) (List.range 16)).fs
        ("a" ++ ".encrypted") (generate_key (List.range 32)) none).ret = some out
      ∧ (decrypt_file (encrypt_file fsABC "a" (generate_key (List.range 32))
            (List.replicate 8 0) (List.range 16)).fs
          ("a" ++ ".encrypted") (generate_key (List.range 32)) none).fs.read out
        = some [1, 2, 3] :=
  encrypt_decrypt_roundtrip fsABC "a" [1, 2, 3] (List.range 32) (List.replicate 8 0)
    (List.range 16) rfl (by decide) (by decide) (by decide) (by decide) (by decide)
    (by decide) (by decide)

/-- **C3** (confirmed): whenever the envelope fails Fernet's
authentication/integrity check — a wrong key, a flipped bit, or any
malformation all raise the same `InvalidToken` — `decrypt_file`
returns the code's single, cause-indistinguishable failure value
(`None`, with one error log record) and performs no write at all: the
event trace is empty and the filesystem is returned unchanged, so no
partial or half-decrypted file is ever left at the destination. -/
theorem decrypt_fails_closed (fs : FS) (path : String) (tok key sk ek : List Nat)
    (out : Option String)
    (hread : fs.read path = some tok)
    (hkey : parseFernetKey key = some (sk, ek))
    (hfail : fernetDecToken sk ek tok = none) :
    decrypt_file fs path key out = ⟨fs, [], [.errDecrypt path], none⟩ := by
  simp only [decrypt_file, hread, hkey, hfail]

/-- A well-formed 73-byte token whose trailing 32 bytes are not the MAC
of its body: its authentication check fails. -/
def badToken : List Nat :=
  b64encode ((128 :: (List.replicate 8 0 ++ (List.replicate 16 0
    ++ List.replicate 16 0))) ++ List.replicate 32 0)

/-- Sample filesystem holding `badToken` at `"e"`. -/
def fsBadTok : FS := fun q => if q = "e" then some badToken else none

set_option maxRecDepth 4000 in
/-- Witness for `decrypt_fails_closed`: a token with a forged all-zero
tag under the all-zero key. -/
theorem decrypt_fails_closed_witness :
    decrypt_file fsBadTok "e" (generate_key (List.replicate 32 0)) none
      = ⟨fsBadTok, [], [.errDecrypt "e"], none⟩ :=
  decrypt_fails_closed fsBadTok "e" badToken (generate_key (List.replicate 32 0))
    ((List.replicate 32 0).take 16) ((List.replicate 32 0).drop 16) none
    rfl (by decide) (by decide)

/-- Sample filesystem holding one empty file `"a"`. -/
def fsEmpty : FS := fun q => if q = "a" then some [] else none

/-- **C7 counterexample**: encrypting this 0-byte file produces an
envelope file of 100 bytes, while the fixed nonce (IV) length plus the
fixed tag (HMAC) length is 16 + 32 = 48: the envelope length is not
`nonce + tag`, because the empty plaintext still contributes a full
16-byte PKCS7 padding block and the whole token is base64url-expanded,
behind a version byte and a timestamp. -/
theorem envelope_empty_length_cex :
    ((encrypt_file fsEmpty "a" (generate_key (List.replicate 32 0))
        (List.replicate 8 0) (List.replicate 16 0)).fs.read "a.encrypted").map
        List.length = some 100
    ∧ (100 : Nat) ≠ 16 + 32 := by
  constructor
  · decide
  · decide

/-- **C7 amended**: encrypting a 0-byte file produces an envelope of
exactly 100 bytes — the base64url transport (`⌈73/3⌉·4 = 100`) of the
73-byte raw token `1 (version) + 8 (timestamp) + 16 (IV) + 16 (one
PKCS7 padding block, the empty plaintext's whole ciphertext) + 32
(tag)` — and decrypting that envelope with the same key yields a
0-byte file. -/
theorem envelope_empty_amended (fs : FS) (path : String) (kb ts iv : List Nat)
    (hread : fs.read path = some [])
    (hkb : kb.length = 32) (hkbB : ∀ a ∈ kb, a < 256)
    (hts : ts.length = 8) (htsB : ∀ a ∈ ts, a < 256)
    (hiv : iv.length = 16) (hivB : ∀ a ∈ iv, a < 256) :
    ∃ env, (encrypt_file fs path (generate_key kb) ts iv).fs.read (path ++ ".encrypted")
        = some env
      ∧ env.length = 100
      ∧ ∃ out, (decrypt_file (encrypt_file fs path (generate_key kb) ts iv).fs
            (path ++ ".encrypted") (generate_key kb) none).ret = some out
        ∧ (decrypt_file (encrypt_file fs path (generate_key kb) ts iv).fs
            (path ++ ".encrypted") (generate_key kb) none).fs.read out = some [] := by
  have hkey : parseFernetKey (generate_key kb) = some (kb.take 16, kb.drop 16) := by
    simpa [generate_key] using parseFernetKey_b64encode kb hkb hkbB
  have hek : (kb.drop 16).length = 16 := by simp [hkb]
  have hekB : ∀ a ∈ kb.drop 16, a < 256 := fun a ha => hkbB a (List.mem_of_mem_drop ha)
  have hfd := fernetDecToken_fernetEncToken (kb.take 16) (kb.drop 16) ts iv []
    hek hekB hts htsB hiv hivB (by simp)
  have hpadlen : (pkcs7pad ([] : List Nat)).length = 16 := by decide
  have hct : (cbcEnc (kb.drop 16) iv (pkcs7pad [])).length = 16 := by
    rw [cbcEnc_length _ _ _ hek hiv (pkcs7pad_length_mod [])]
    exact hpadlen
  have hlen : (fernetEncToken (kb.take 16) (kb.drop 16) ts iv []).length = 100 := by
    rw [fernetEncToken, b64encode_length]
    simp [hts, hiv, hct, hmacModel_length]
  rw [encrypt_file_ok fs path [] (generate_key kb) ts iv _ _ hread hkey]
  refine ⟨_, FS.read_write_self _ _ _, hlen, ?_⟩
  rw [decrypt_file_ok _ (path ++ ".encrypted") _ (generate_key kb) [] _ _
    (FS.read_write_self fs _ _) hkey hfd]
  exact ⟨_, rfl, FS.read_write_self _ _ _⟩

/-- Witness for `envelope_empty_amended` with the all-zero key material. -/
theorem envelope_empty_amended_witness :
    ∃ env, (encrypt_file fsEmpty "a" (generate_key (List.replicate 32 0))
        (List.replicate 8 0) (List.replicate 16 0)).fs.read ("a" ++ ".encrypted")
        = some env
      ∧ env.length = 100
      ∧ ∃ out, (decrypt_file (encrypt_file fsEmpty "a"
            (generate_key (List.replicate 32 0)) (List.replicate 8 0)
            (List.replicate 16 0)).fs
            ("a" ++ ".encrypted") (generate_key (List.replicate 32 0)) none).ret
          = some out
        ∧ (decrypt_file (encrypt_file fsEmpty "a"
            (generate_key (List.replicate 32 0)) (List.replicate 8 0)
            (List.replicate 16 0)).fs
            ("a" ++ ".encrypted") (generate_key (List.replicate 32 0)) none).fs.read out
          = some [] :=
  envelope_empty_amended fsEmpty "a" (List.replicate 32 0) (List.replicate 8 0)
    (List.replicate 16 0) rfl (by decide) (by decide) (by decide) (by decide)
    (by decide) (by decide)

/-! ## Output path derivation -/

theorem pyEndsWith_append_self (p s : String) : pyEndsWith (p ++ s) s = true := by
  unfold pyEndsWith
  rw [String.data_append]
  simp [List.drop_left']

theorem pyDropRight_append (p s : String) : pyDropRight (p ++ s) s.data.length = p := by
  unfold pyDropRight
  rw [String.data_append]
  simp only [List.length_append, Nat.add_sub_cancel, List.take_left]

/-- **C8** (confirmed): `encrypt_file` writes its envelope to the source
path with the fixed suffix `'.encrypted'` appended and returns that path
on success; `decrypt_file` without an explicit output path derives it by
stripping the last ten characters when the input ends with
`'.encrypted'` — in particular mapping `path ++ ".encrypted"` back to
`path` — and otherwise appends the fixed `'.decrypted'` suffix, writing
the plaintext there and returning that path on success. -/
theorem output_path_derivation (fs : FS) (path : String) (p key ts iv sk ek d : List Nat)
    (hread : fs.read path = some p)
    (hkey : parseFernetKey key = some (sk, ek)) :
    ((encrypt_file fs path key ts iv).ret = some (path ++ ".encrypted")
      ∧ (encrypt_file fs path key ts iv).events
        = [.write (path ++ ".encrypted") (fernetEncToken sk ek ts iv p)])
    ∧ (fernetDecToken sk ek p = some d →
        (decrypt_file fs path key none).ret
          = some (if pyEndsWith path ".encrypted" then pyDropRight path 10
              else path ++ ".decrypted")
        ∧ (decrypt_file fs path key none).events
          = [.write (if pyEndsWith path ".encrypted" then pyDropRight path 10
              else path ++ ".decrypted") d])
    ∧ pyEndsWith (path ++ ".encrypted") ".encrypted" = true
    ∧ pyDropRight (path ++ ".encrypted") 10 = path := by
  refine ⟨?_, fun hfd => ?_, pyEndsWith_append_self path ".encrypted", ?_⟩
  · rw [encrypt_file_ok fs path p key ts iv _ _ hread hkey]
    exact ⟨rfl, rfl⟩
  · rw [decrypt_file_ok fs path p key d _ _ hread hkey hfd]
    exact ⟨rfl, rfl⟩
  · have h10 : (".encrypted" : String).data.length = 10 := by decide
    rw [← h10]
    exact pyDropRight_append path ".encrypted"

/-- Witness for `output_path_derivation`: the three-byte file under the
all-indices key (its own contents do not authenticate as a token, so
the decrypt branch is exercised vacuously through the envelope written
by `encrypt_file` in `encrypt_decrypt_roundtrip_witness`; here the
concrete conclusion instantiates the encrypt part and the string laws). -/
theorem output_path_derivation_witness :
    ((encrypt_file fsABC "a" (generate_key (List.range 32)) (List.replicate 8 0)
        (List.range 16)).ret = some ("a" ++ ".encrypted")
      ∧ (encrypt_file fsABC "a" (generate_key (List.range 32)) (List.replicate 8 0)
          (List.range 16)).events
        = [.write ("a" ++ ".encrypted")
            (fernetEncToken ((List.range 32).take 16) ((List.range 32).drop 16)
              (List.replicate 8 0) (List.range 16) [1, 2, 3])])
    ∧ (fernetDecToken ((List.range 32).take 16) ((List.range 32).drop 16) [1, 2, 3]
          = some [9] →
        (decrypt_file fsABC "a" (generate_key (List.range 32)) none).ret
          = some (if pyEndsWith "a" ".encrypted" then pyDropRight "a" 10
              else "a" ++ ".decrypted")
        ∧ (decrypt_file fsABC "a" (generate_key (List.range 32)) none).events
          = [.write (if pyEndsWith "a" ".encrypted" then pyDropRight "a" 10
              else "a" ++ ".decrypted") [9]])
    ∧ pyEndsWith ("a" ++ ".encrypted") ".encrypted" = true
    ∧ pyDropRight ("a" ++ ".encrypted") 10 = "a" :=
  output_path_derivation fsABC "a" [1, 2, 3] (generate_key (List.range 32))
    (List.replicate 8 0) (List.range 16) ((List.range 32).take 16)
    ((List.range 32).drop 16) [9] rfl (by decide)

/-! ## Key codec -/

/-- **C9** (confirmed): every key produced by `generate_key` is a
base64url token of ASCII code points, so the GUI's transport round trip
— `key.decode('utf-8')` to display the key, `key_str.encode('utf-8')`
to parse it back — returns exactly the original key bytes:
`from_text(to_text(k)) = k`. -/
theorem key_codec_roundtrip (k32 : List Nat) :
    (keyToText (generate_key k32)).bind keyFromText = some (generate_key k32) := by
  have hascii : ((generate_key k32).all fun a => decide (a < 128)) = true := by
    rw [List.all_eq_true]
    intro x hx
    simpa using b64encode_mem_lt_128 k32 x (by simpa [generate_key] using hx)
  rw [keyToText, if_pos hascii]
  show keyFromText (generate_key k32) = some (generate_key k32)
  rw [keyFromText, if_pos hascii]

/-! ## Failure classification -/

/-- Sample filesystem holding one file `"g"` with a single byte. -/
def fsG : FS := fun q => if q = "g" then some [5] else none

/-- **C5 counterexample**: two failures of different kinds — a
permission denial while erasing an existing file, and erasing a missing
path — return the *identical* untagged value `False`; `encrypt_file`
and `decrypt_file` likewise return the bare `None` on failure.  The
returned results carry no error-kind classification at all. -/
theorem untagged_failure_cex :
    (secure_delete fsG rndZero "g" 3 ⟨some .permissionError, none⟩).ret = false
    ∧ (secure_delete fsG rndZero "missing" 3 noFaults).ret = false
    ∧ (secure_delete fsG rndZero "g" 3 ⟨some .permissionError, none⟩).ret
        = (secure_delete fsG rndZero "missing" 3 noFaults).ret
    ∧ (encrypt_file fsG "missing" [] [] []).ret = none
    ∧ (decrypt_file fsG "missing" [] none).ret = none := by
  refine ⟨by decide, by decide, by decide, by decide, by decide⟩

/-- **C5 amended**: no core operation raises past its boundary — every
exceptional path is caught and converted into a returned value — but
the returned failure values are untagged (`False` for `secure_delete`,
`None` for `encrypt_file` / `decrypt_file`); the classification of the
failure (not-found warning; permission / OS / unexpected error) is
recorded only in the log, which always names the path. -/
theorem failures_returned_and_logged (fs : FS) (rnd : Nat → Nat → List Nat)
    (p : String) (d : List Nat) (passes : Nat) (hread : fs.read p = some d)
    (hp : 1 ≤ passes) :
    (∀ e, (secure_delete fs rnd p passes ⟨some e, none⟩).ret = false
      ∧ logOfExc e p ∈ (secure_delete fs rnd p passes ⟨some e, none⟩).logs)
    ∧ (∀ e, (secure_delete fs rnd p passes ⟨none, some e⟩).ret = false
      ∧ logOfExc e p ∈ (secure_delete fs rnd p passes ⟨none, some e⟩).logs)
    ∧ (∀ (fs2 : FS) (q : String), fs2.pathExists q = false →
        secure_delete fs2 rnd q passes noFaults = ⟨fs2, [], [.warnNotFound q], false⟩)
    ∧ (∀ (fs2 : FS) (q : String) key ts iv, fs2.read q = none →
        encrypt_file fs2 q key ts iv = ⟨fs2, [], [.errEncrypt q], none⟩)
    ∧ (∀ (fs2 : FS) (q : String) key out, fs2.read q = none →
        decrypt_file fs2 q key out = ⟨fs2, [], [.errDecrypt q], none⟩) := by
  have h' : fs p = some d := hread
  have hex : fs.pathExists p = true := by simp [FS.pathExists, h']
  obtain ⟨n, rfl⟩ : ∃ n, passes = n + 1 := ⟨passes - 1, by omega⟩
  refine ⟨fun e => ?_, fun e => ?_, fun fs2 q h => ?_, fun fs2 q key ts iv h => ?_,
    fun fs2 q key out h => ?_⟩
  · constructor <;> simp [secure_delete, hex]
  · rw [secure_delete_removeFault_spec fs rnd p d (n + 1) e hread]
    simp
  · simp [secure_delete, h]
  · have h2 : fs2 q = none := h
    simp [encrypt_file, FS.read, h2]
  · have h2 : fs2 q = none := h
    simp [decrypt_file, FS.read, h2]

/-- Witness for `failures_returned_and_logged` on a one-byte file with
three passes. -/
theorem failures_returned_and_logged_witness :
    (∀ e, (secure_delete fsG rndZero "g" 3 ⟨some e, none⟩).ret = false
      ∧ logOfExc e "g" ∈ (secure_delete fsG rndZero "g" 3 ⟨some e, none⟩).logs)
    ∧ (∀ e, (secure_delete fsG rndZero "g" 3 ⟨none, some e⟩).ret = false
      ∧ logOfExc e "g" ∈ (secure_delete fsG rndZero "g" 3 ⟨none, some e⟩).logs)
    ∧ (∀ (fs2 : FS) (q : String), fs2.pathExists q = false →
        secure_delete fs2 rndZero q 3 noFaults = ⟨fs2, [], [.warnNotFound q], false⟩)
    ∧ (∀ (fs2 : FS) (q : String) key ts iv, fs2.read q = none →
        encrypt_file fs2 q key ts iv = ⟨fs2, [], [.errEncrypt q], none⟩)
    ∧ (∀ (fs2 : FS) (q : String) key out, fs2.read q = none →
        decrypt_file fs2 q key out = ⟨fs2, [], [.errDecrypt q], none⟩) :=
  failures_returned_and_logged fsG rndZero "g" [5] 3 rfl (by omega)

end VaultBurn
